import Mathlib

/-!
Shallow embedding of the core text-processing code of the rss_feed repository
(src/pdf_processor.py, src/rss_feed.py, src/gemini_api.py).

Python strings are modelled as lists of characters (`Str`); `str.upper`,
`str.strip`, `str.split` and the regex character classes are modelled over
ASCII, which covers all inputs the claims are about.
-/

abbrev Str := List Char

/-- Python whitespace class (used by `str.strip`, `str.split` and regex `\s`). -/
def isSpaceC (c : Char) : Bool :=
  c = ' ' || c = '\t' || c = '\n' || c = '\r' || c = '\x0b' || c = '\x0c'

def isDigitC (c : Char) : Bool := '0' ≤ c && c ≤ '9'

def isUpperAlphaC (c : Char) : Bool := 'A' ≤ c && c ≤ 'Z'

def isLowerAlphaC (c : Char) : Bool := 'a' ≤ c && c ≤ 'z'

/-- ASCII `str.upper` on one character. -/
def toUpperC (c : Char) : Char :=
  if isLowerAlphaC c then Char.ofNat (c.toNat - 32) else c

/-- ASCII `str.lower` on one character. -/
def toLowerC (c : Char) : Char :=
  if isUpperAlphaC c then Char.ofNat (c.toNat + 32) else c

def dropLead (s : Str) : Str := s.dropWhile isSpaceC

def dropTrail (s : Str) : Str := (s.reverse.dropWhile isSpaceC).reverse

/-- Python `str.strip()`. -/
def stripS (s : Str) : Str := dropTrail (dropLead s)

/-- Python `str.split('\n')` (keeps empty pieces). -/
def linesOf (s : Str) : List Str :=
  s.foldr (fun c gs => if c = '\n' then [] :: gs else (c :: gs.headD []) :: gs.tail) [[]]

/-- Groups of characters between whitespace characters (possibly empty). -/
def groupsOf (s : Str) : List Str :=
  s.foldr (fun c gs => if isSpaceC c then [] :: gs else (c :: gs.headD []) :: gs.tail) [[]]

/-- Python `str.split()` with no argument: maximal runs of non-whitespace. -/
def wordsOf (s : Str) : List Str :=
  (groupsOf s).filter (fun g => !g.isEmpty)

def myIsPrefixOf : Str → Str → Bool
  | [], _ => true
  | _ :: _, [] => false
  | a :: as, b :: bs => a = b && myIsPrefixOf as bs

/-- Python substring test `needle in hay`. -/
def containsSub (needle hay : Str) : Bool :=
  (List.range (hay.length + 1)).any (fun i => myIsPrefixOf needle (hay.drop i))

/-- Python slice `s[a:b]` on int indices (negative indices count from the end,
out-of-range indices clamp). -/
def pySlice (s : Str) (a b : Int) : Str :=
  let n : Int := s.length
  let lo := if a < 0 then max 0 (n + a) else min a n
  let hi := if b < 0 then max 0 (n + b) else min b n
  (s.drop lo.toNat).take (hi.toNat - lo.toNat)

/-- Python slice `s[a:b]` for nonnegative bounds. -/
def sliceN (s : Str) (a b : Nat) : Str := (s.drop a).take (b - a)

/-- Python `s[-k:]` for `k < len(s)` (last `k` characters). -/
def lastN (k : Nat) (s : Str) : Str := s.drop (s.length - k)

/-- Python `s.rfind(c, pos)`: greatest index `i ≥ pos` with `s[i] = c`, else `-1`. -/
def rfindFrom (s : Str) (c : Char) (pos : Nat) : Int :=
  (List.range s.length).foldl
    (fun acc i => if pos ≤ i && s.getD i ' ' = c then (i : Int) else acc) (-1)

/-! ## pdf_processor.py: estimate_tokens and needs_chunking -/

/-- estimate_tokens from src/pdf_processor.py: `len(text) // 4`. -/
def estimateTokens (text : Str) : Nat := text.length / 4

/-- The reason value returned by needs_chunking, with the reported number
(the source formats it into a human-readable string). -/
inductive ChunkReason where
  | pages (n : Nat)
  | chars (n : Nat)
  | tokens (n : Nat)
  | withinLimits
deriving DecidableEq

def isTokenReason : ChunkReason → Bool
  | .tokens _ => true
  | _ => false

/-- needs_chunking from src/pdf_processor.py. -/
def needsChunking (text : Str) (pageCount : Nat) : Bool × ChunkReason :=
  let charCount := text.length
  let tokenEstimate := estimateTokens text
  if 50 < pageCount then (true, .pages pageCount)
  else if 500000 < charCount then (true, .chars charCount)
  else if 125000 < tokenEstimate then (true, .tokens tokenEstimate)
  else (false, .withinLimits)

/-- C5: needs_chunking returns true exactly when page count > 50, or character
count > 500000, or estimated tokens (characters / 4) > 125000; the conditions
are evaluated in that order and the first true one determines the reason; a
text of exactly 500001 characters (with page count ≤ 50) triggers chunking and
a text of exactly 500000 characters does not. -/
theorem C5_needs_chunking_thresholds (text : Str) (pageCount : Nat) :
    ((needsChunking text pageCount).1 = true ↔
      (50 < pageCount ∨ 500000 < text.length ∨ 125000 < text.length / 4)) ∧
    (50 < pageCount → (needsChunking text pageCount).2 = .pages pageCount) ∧
    (pageCount ≤ 50 → 500000 < text.length →
      (needsChunking text pageCount).2 = .chars text.length) ∧
    (pageCount ≤ 50 → text.length ≤ 500000 → 125000 < text.length / 4 →
      (needsChunking text pageCount).2 = .tokens (text.length / 4)) ∧
    (text.length = 500001 → pageCount ≤ 50 → (needsChunking text pageCount).1 = true) ∧
    (text.length = 500000 → pageCount ≤ 50 → (needsChunking text pageCount).1 = false) := by
  simp only [needsChunking, estimateTokens]
  refine ⟨?_, ?_, ?_, ?_, ?_, ?_⟩
  · split <;> rename_i h1
    · simp; omega
    · split <;> rename_i h2
      · simp; omega
      · split <;> rename_i h3
        · simp; omega
        · simp; omega
  · intro h; simp [h]
  · intro h1 h2; rw [if_neg (by omega), if_pos h2]
  · intro h1 h2 h3; rw [if_neg (by omega), if_neg (by omega), if_pos h3]
  · intro h1 h2; rw [h1]; rw [if_neg (by omega), if_pos (by omega)]
  · intro h1 h2
    rw [h1, if_neg (show ¬ 50 < pageCount by omega)]
    norm_num

theorem C5_needs_chunking_thresholds_witness :
    (needsChunking (List.replicate 500001 'a') 0).1 = true ∧
    (needsChunking (List.replicate 500000 'a') 0).1 = false := by
  constructor
  · exact (C5_needs_chunking_thresholds (List.replicate 500001 'a') 0).2.2.2.2.1
      (by rw [List.length_replicate]) (by norm_num)
  · exact (C5_needs_chunking_thresholds (List.replicate 500000 'a') 0).2.2.2.2.2
      (by rw [List.length_replicate]) (by norm_num)

/-- C10: the token-estimate branch of needs_chunking is unreachable:
len // 4 > 125000 forces len > 500000, so the character check fires first;
hence the boolean result equals (page_count > 50 or length > 500000) and the
returned reason is never the token-estimate reason. -/
theorem C10_token_branch_unreachable (text : Str) (pageCount : Nat) :
    (needsChunking text pageCount).1 =
      (decide (50 < pageCount) || decide (500000 < text.length)) ∧
    isTokenReason (needsChunking text pageCount).2 = false := by
  simp only [needsChunking, estimateTokens]
  have hkey : 125000 < text.length / 4 → 500000 < text.length := by omega
  split <;> rename_i h1
  · simp [h1, isTokenReason]
  · split <;> rename_i h2
    · simp [h1, h2, isTokenReason]
    · rw [if_neg (by omega)]
      simp [h1, h2, isTokenReason]

/-! ## rss_feed.py: company-name normalization and matching -/

/-- The ordered replacement dictionary of normalize_company_name. -/
def replacementPairs : List (Str × Str) :=
  [("LIMITED".toList, "LTD".toList),
   ("INCORPORATED".toList, "INC".toList),
   ("CORPORATION".toList, "CORP".toList),
   ("PRIVATE LIMITED".toList, "PVT LTD".toList),
   ("PVT. LTD.".toList, "PVT LTD".toList),
   ("PRIVATE LTD.".toList, "PVT LTD".toList),
   ("PRIVATE LTD".toList, "PVT LTD".toList),
   ("LTD.".toList, "LTD".toList),
   ("INC.".toList, "INC".toList),
   ("CORP.".toList, "CORP".toList),
   ("&".toList, "AND".toList),
   (" + ".toList, " AND ".toList),
   ("  ".toList, " ".toList)]

def replaceGo (old new : Str) : Nat → Str → Str
  | _, [] => []
  | 0, s => s
  | fuel + 1, c :: cs =>
    if myIsPrefixOf old (c :: cs) && !old.isEmpty then
      new ++ replaceGo old new fuel ((c :: cs).drop old.length)
    else c :: replaceGo old new fuel cs

/-- Python `s.replace(old, new)`: all occurrences, scanned left to right
(`old` is nonempty for every replacement the source performs). -/
def replaceAll (s old new : Str) : Str := replaceGo old new s.length s

/-- Removal of the punctuation class `[.,;:()\[\]{}]` of normalize_company_name. -/
def isPunctC (c : Char) : Bool :=
  c = '.' || c = ',' || c = ';' || c = ':' || c = '(' || c = ')'
    || c = '[' || c = ']' || c = '\x7b' || c = '\x7d'

def removePunct (s : Str) : Str := s.filter (fun c => !isPunctC c)

/-- Python `' '.join(words)`. -/
def joinWords : List Str → Str
  | [] => []
  | [w] => w
  | w :: ws => w ++ ' ' :: joinWords ws

/-- normalize_company_name from src/rss_feed.py (ASCII uppercasing; the
`pd.isna` guard collapses to the empty-string test on string input). -/
def normalizeCompanyName (name : Str) : Str :=
  if name.isEmpty then []
  else
    let u := (stripS name).map toUpperC
    let r := replacementPairs.foldl (fun s p => replaceAll s p.1 p.2) u
    joinWords (wordsOf (removePunct r))

/-- The stop-word list of fuzzy_match_company_name. -/
def commonWords : List Str :=
  ["LTD", "INC", "CORP", "PVT", "AND", "THE", "OF", "IN", "FOR", "TO",
   "INDUSTRIES", "INDUSTRY", "ENGINEERING", "AUTOMATION", "SYSTEMS",
   "TECHNOLOGIES", "TECHNOLOGY", "SOLUTIONS", "SERVICES", "GROUP",
   "GLOBAL", "INTERNATIONAL", "COMPANY", "COMPANIES",
   "INDIA", "OVERSEAS", "FINANCE", "FINANCIAL", "BANK", "BANKING"].map
    String.toList

/-- extract_significant_words from fuzzy_match_company_name: drop stop words,
keep words longer than 2 characters or containing a digit. -/
def significantWords (s : Str) : List Str :=
  (wordsOf s).filter (fun w => !commonWords.contains w && (2 < w.length || w.any isDigitC))

/-- Regex word-character class `\w` (ASCII). -/
def isWordCharC (c : Char) : Bool :=
  isUpperAlphaC c || isLowerAlphaC c || isDigitC c || c = '_'

/-- Regex search for an escaped needle between two `\b` word boundaries, for a
needle made of word characters (the ticker symbols and significant words the
source feeds it): an occurrence not flanked by word characters. -/
def occursWholeWord (needle hay : Str) : Bool :=
  (List.range (hay.length + 1)).any (fun i =>
    myIsPrefixOf needle (hay.drop i) &&
    (decide (i = 0) || !isWordCharC (hay.getD (i - 1) ' ')) &&
    (decide (hay.length ≤ i + needle.length) || !isWordCharC (hay.getD (i + needle.length) ' ')))

/-- The symbol branch of search_stocks_in_dataframe: symbols of length at most
3 are matched with a word-boundary regex against the upper-cased row blob,
longer symbols with a plain substring test. -/
def symbolMatchesBlob (sym blob : Str) : Bool :=
  let ub := blob.map toUpperC
  if sym.length ≤ 3 then occursWholeWord sym ub else containsSub sym ub

/-- fuzzy_match_company_name from src/rss_feed.py. The external fuzz scorers
(fuzz.ratio, fuzz.token_sort_ratio, fuzz.partial_ratio) are oracle parameters
rFn, tFn, pFn; the float threshold 0.9 is modelled as the rational 9/10. The
`threshold` parameter of the source is dead (never read) and omitted. -/
def fuzzyMatchCompanyName (rFn tFn pFn : Str → Str → Nat)
    (searchName text : Str) : Bool :=
  if searchName.isEmpty || text.isEmpty then false
  else
    let ns := normalizeCompanyName searchName
    let nt := normalizeCompanyName text
    if ns.isEmpty || nt.isEmpty then false
    else
      let sw := significantWords ns
      let tw := significantWords nt
      match sw with
      | [] => containsSub ns nt
      | [w] =>
        if containsSub ns nt then true
        else if occursWholeWord w nt then
          if containsSub ns nt then true
          else decide (98 ≤ rFn ns nt)
        else false
      | _ =>
        if sw.all (fun w => tw.contains w) then true
        else
          let matching := (sw.filter (fun w => tw.contains w)).length
          let firstMatch := match sw with | [] => false | w :: _ => tw.contains w
          if decide (9 * sw.length ≤ 10 * matching) && firstMatch then true
          else if decide (90 ≤ tFn ns nt) then true
          else if decide (95 ≤ pFn ns nt) then true
          else false

/-! ## Lemmas about the string primitives -/

theorem myIsPrefixOf_iff (p : Str) : ∀ s : Str, myIsPrefixOf p s = true ↔ p <+: s := by
  induction p with
  | nil => intro s; simp [myIsPrefixOf]
  | cons a as ih =>
    intro s
    cases s with
    | nil => simp [myIsPrefixOf]
    | cons b bs =>
      simp only [myIsPrefixOf, Bool.and_eq_true, decide_eq_true_eq, ih,
        List.cons_prefix_cons]

theorem containsSub_iff (n h : Str) : containsSub n h = true ↔ n <:+: h := by
  constructor
  · intro hc
    simp only [containsSub, List.any_eq_true, List.mem_range] at hc
    obtain ⟨i, _, hp⟩ := hc
    rw [myIsPrefixOf_iff] at hp
    obtain ⟨t, ht⟩ := hp
    exact ⟨h.take i, t, by rw [List.append_assoc, ht, List.take_append_drop]⟩
  · intro ⟨u, v, huv⟩
    simp only [containsSub, List.any_eq_true, List.mem_range]
    refine ⟨u.length, ?_, ?_⟩
    · subst huv; simp; omega
    · rw [myIsPrefixOf_iff]
      subst huv
      rw [List.append_assoc, List.drop_left]
      exact ⟨v, rfl⟩

/-- C8: for a nonempty ticker symbol of length at most 3, the symbol branch of
search_stocks_in_dataframe matches a blob exactly when the symbol occurs in the
upper-cased blob with no word character on either side (regex word boundary);
symbol "LT" matches blob "LT Limited reported to exchanges" and does not match
blob "KELLTON reported to exchanges"; for symbols longer than 3 characters a
plain substring occurrence of the symbol in the upper-cased blob suffices. -/
theorem C8_short_symbol_word_boundary :
    (∀ sym blob : Str, sym ≠ [] → sym.length ≤ 3 →
      (symbolMatchesBlob sym blob = true ↔
        ∃ i, sym <+: (blob.map toUpperC).drop i ∧
          (i = 0 ∨ isWordCharC ((blob.map toUpperC).getD (i - 1) ' ') = false) ∧
          ((blob.map toUpperC).length ≤ i + sym.length ∨
            isWordCharC ((blob.map toUpperC).getD (i + sym.length) ' ') = false))) ∧
    symbolMatchesBlob ("LT".toList) ("LT Limited reported to exchanges".toList) = true ∧
    symbolMatchesBlob ("LT".toList) ("KELLTON reported to exchanges".toList) = false ∧
    (∀ sym blob : Str, 3 < sym.length →
      (symbolMatchesBlob sym blob = true ↔ sym <:+: blob.map toUpperC)) := by
  refine ⟨?_, by decide, by decide, ?_⟩
  · intro sym blob hne hlen
    rw [symbolMatchesBlob, if_pos hlen]
    unfold occursWholeWord
    simp only [List.any_eq_true, List.mem_range, Bool.and_eq_true, Bool.or_eq_true,
      decide_eq_true_eq, Bool.not_eq_true', myIsPrefixOf_iff]
    constructor
    · rintro ⟨i, _, ⟨hp, hb⟩, ha⟩
      exact ⟨i, hp, hb, ha⟩
    · rintro ⟨i, hp, hb, ha⟩
      refine ⟨i, ?_, ⟨hp, hb⟩, ha⟩
      have : i ≤ (blob.map toUpperC).length := by
        by_contra hgt
        push_neg at hgt
        rw [List.drop_of_length_le (le_of_lt hgt)] at hp
        exact hne (List.prefix_nil.mp hp)
      omega
  · intro sym blob hlen
    rw [symbolMatchesBlob, if_neg (by omega)]
    exact containsSub_iff sym (blob.map toUpperC)

theorem C8_short_symbol_word_boundary_witness :
    symbolMatchesBlob ("LT".toList) ("LT Limited reported to exchanges".toList) = true ∧
    symbolMatchesBlob ("TCS".toList)
      ("Update from TCS on results".toList) = true ∧
    symbolMatchesBlob ("KELLTON".toList) ("About KELLTON results".toList) = true := by
  refine ⟨C8_short_symbol_word_boundary.2.1, ?_, ?_⟩
  · exact (C8_short_symbol_word_boundary.1 ("TCS".toList) _ (by decide) (by decide)).mpr
      ⟨12, by decide, by decide, by decide⟩
  · exact (C8_short_symbol_word_boundary.2.2.2 ("KELLTON".toList) _ (by decide)).mpr
      ⟨"ABOUT ".toList, " RESULTS".toList, by decide⟩

/-- C9: whenever the search name and the text both normalize to nonempty
strings and the normalized search name has zero significant words after
stop-word and length filtering, fuzzy_match_company_name returns true exactly
when the full normalized search name is a substring of the normalized text
(for any behaviour of the external fuzz scorers). -/
theorem C9_zero_significant_words (rFn tFn pFn : Str → Str → Nat) (s t : Str)
    (hs : normalizeCompanyName s ≠ [])
    (ht : normalizeCompanyName t ≠ [])
    (hw : significantWords (normalizeCompanyName s) = []) :
    (fuzzyMatchCompanyName rFn tFn pFn s t = true ↔
      containsSub (normalizeCompanyName s) (normalizeCompanyName t) = true) := by
  have hsne : s ≠ [] := by
    intro h; exact hs (by rw [h]; rfl)
  have htne : t ≠ [] := by
    intro h; exact ht (by rw [h]; rfl)
  rw [fuzzyMatchCompanyName]
  rw [if_neg (by simp [List.isEmpty_iff, hsne, htne])]
  simp only
  rw [if_neg (by simp [List.isEmpty_iff, hs, ht])]
  simp only [hw]

theorem C9_zero_significant_words_witness :
    fuzzyMatchCompanyName (fun _ _ => 0) (fun _ _ => 0) (fun _ _ => 0)
      ("LTD".toList) ("XLTDY".toList) = true :=
  (C9_zero_significant_words (fun _ _ => 0) (fun _ _ => 0) (fun _ _ => 0)
    ("LTD".toList) ("XLTDY".toList) (by decide) (by decide) (by decide)).mpr (by decide)

/-- C6 counterexample: normalize_company_name is not idempotent. Punctuation
removal runs after the suffix replacements, so normalizing "LIMI.TED" yields
"LIMITED", which a second application rewrites to "LTD". -/
theorem C6_normalize_idempotent_counterexample :
    normalizeCompanyName (normalizeCompanyName ("LIMI.TED".toList)) ≠
      normalizeCompanyName ("LIMI.TED".toList) ∧
    normalizeCompanyName ("LIMI.TED".toList) = "LIMITED".toList ∧
    normalizeCompanyName (normalizeCompanyName ("LIMI.TED".toList)) = "LTD".toList := by
  refine ⟨by decide, by decide, by decide⟩

/-! Machinery for the amended C6: the normalizer is the identity on strings in
"normal form" (no lowercase letter, no removable punctuation, canonical single
spacing, and no occurrence of any replacement key), so it is idempotent on
every input whose normalization lands in normal form. -/

def optAllB (p : Char → Bool) : Option Char → Bool
  | none => true
  | some c => p c

/-- Normal form for the output of normalize_company_name: upper-case ASCII with
no removable punctuation, spaces only as single internal separators, and no
occurrence of any replacement key. -/
def normalFormB (y : Str) : Bool :=
  y.all (fun c => !isLowerAlphaC c && !isPunctC c && (c = ' ' || !isSpaceC c)) &&
  optAllB (fun c => !(c = ' ')) y.head? &&
  optAllB (fun c => !(c = ' ')) y.getLast? &&
  replacementPairs.all (fun p => !containsSub p.1 y)

theorem replaceGo_of_not_infix (old new : Str) :
    ∀ (fuel : Nat) (s : Str), ¬ old <:+: s → replaceGo old new fuel s = s := by
  intro fuel
  induction fuel with
  | zero =>
    intro s _
    cases s <;> rfl
  | succ fuel ih =>
    intro s hni
    cases s with
    | nil => rfl
    | cons c cs =>
      have htail : ¬ old <:+: cs := fun h => hni (List.infix_cons h)
      rw [replaceGo, if_neg, ih cs htail]
      intro hand
      rw [Bool.and_eq_true, myIsPrefixOf_iff] at hand
      exact hni hand.1.isInfix

theorem groupsOf_cons (c : Char) (s : Str) :
    groupsOf (c :: s) =
      if isSpaceC c then [] :: groupsOf s
      else (c :: (groupsOf s).headD []) :: (groupsOf s).tail := by
  simp only [groupsOf, List.foldr_cons]

theorem groupsOf_ne_nil (s : Str) : groupsOf s ≠ [] := by
  cases s with
  | nil => simp [groupsOf]
  | cons c cs =>
    rw [groupsOf_cons]
    split <;> simp

theorem joinWords_cons_head (c : Char) (w : Str) (ws : List Str) :
    joinWords ((c :: w) :: ws) = c :: joinWords (w :: ws) := by
  cases ws <;> simp [joinWords]

/-- On a string whose whitespace consists exactly of single internal spaces,
splitting into words and rejoining with single spaces is the identity. -/
theorem joinWords_wordsOf_canonical (n : Nat) :
    ∀ y : Str, y.length ≤ n →
      (∀ c ∈ y, isSpaceC c = true → c = ' ') →
      (¬ [' ', ' '] <:+: y) →
      (∀ c, y.head? = some c → c ≠ ' ') →
      (∀ c, y.getLast? = some c → c ≠ ' ') →
      joinWords (wordsOf y) = y := by
  induction n with
  | zero =>
    intro y hlen _ _ _ _
    have : y = [] := List.length_eq_zero.mp (Nat.le_zero.mp hlen)
    subst this
    rfl
  | succ n ih =>
    intro y hlen h1 h2 h3 h4
    cases y with
    | nil => rfl
    | cons c ys =>
      have hcsp : isSpaceC c = false := by
        by_contra hsp
        rw [Bool.not_eq_false] at hsp
        exact h3 c rfl (h1 c (by simp) hsp)
      cases ys with
      | nil =>
        simp [wordsOf, groupsOf_cons, hcsp, groupsOf, joinWords]
      | cons d ys2 =>
        by_cases hdsp : isSpaceC d = true
        · -- the next character is whitespace, hence a single internal ' '
          have hd : d = ' ' := h1 d (by simp) hdsp
          subst hd
          cases ys2 with
          | nil => exact absurd (h1 ' ' (by simp) (by decide)) (fun _ => h4 ' ' (by simp) rfl)
          | cons e ys3 =>
            have hesp : isSpaceC e = false := by
              by_contra hsp
              rw [Bool.not_eq_false] at hsp
              have he : e = ' ' := h1 e (by simp) hsp
              subst he
              exact h2 ⟨[c], ys3, rfl⟩
            obtain ⟨g, t, hgt⟩ := List.exists_cons_of_ne_nil (groupsOf_ne_nil ys3)
            have hge : groupsOf (e :: ys3) = (e :: g) :: t := by
              rw [groupsOf_cons, hesp, hgt]
              rfl
            have hgs : groupsOf (' ' :: e :: ys3) = [] :: (e :: g) :: t := by
              rw [groupsOf_cons, hge]
              rfl
            have hgc : groupsOf (c :: ' ' :: e :: ys3) = [c] :: (e :: g) :: t := by
              rw [groupsOf_cons, hcsp, hgs]
              rfl
            have hwc : wordsOf (c :: ' ' :: e :: ys3) =
                [c] :: (e :: g) :: (t.filter (fun g => !g.isEmpty)) := by
              rw [wordsOf, hgc]
              simp [List.filter]
            have hwe : wordsOf (e :: ys3) = (e :: g) :: (t.filter (fun g => !g.isEmpty)) := by
              rw [wordsOf, hge]
              simp [List.filter]
            have hih : joinWords (wordsOf (e :: ys3)) = e :: ys3 := by
              apply ih (e :: ys3) (by simp at hlen ⊢; omega)
              · intro x hx hsx; exact h1 x (by simp [hx]) hsx
              · intro hinf
                exact h2 (hinf.trans ((List.suffix_cons ' ' _).trans
                  (List.suffix_cons c _)).isInfix)
              · intro x hx
                simp at hx
                subst hx
                intro he
                rw [he] at hesp
                simp [isSpaceC] at hesp
              · intro x hx
                apply h4 x
                rw [List.getLast?_cons_cons, List.getLast?_cons_cons]
                exact hx
            rw [hwc]
            have hstep : joinWords ([c] :: (e :: g) :: List.filter (fun g => !g.isEmpty) t) =
                [c] ++ ' ' :: joinWords ((e :: g) :: List.filter (fun g => !g.isEmpty) t) := rfl
            rw [hstep, ← hwe, hih]
            rfl
        · -- the next character is not whitespace: it extends the first word
          rw [Bool.not_eq_true] at hdsp
          obtain ⟨g, t, hgt⟩ := List.exists_cons_of_ne_nil (groupsOf_ne_nil ys2)
          have hgd : groupsOf (d :: ys2) = (d :: g) :: t := by
            rw [groupsOf_cons, hdsp, hgt]
            rfl
          have hgc : groupsOf (c :: d :: ys2) = (c :: d :: g) :: t := by
            rw [groupsOf_cons, hcsp, hgd]
            rfl
          have hwc : wordsOf (c :: d :: ys2) =
              (c :: d :: g) :: (t.filter (fun g => !g.isEmpty)) := by
            rw [wordsOf, hgc]
            simp [List.filter]
          have hwd : wordsOf (d :: ys2) = (d :: g) :: (t.filter (fun g => !g.isEmpty)) := by
            rw [wordsOf, hgd]
            simp [List.filter]
          have hih : joinWords (wordsOf (d :: ys2)) = d :: ys2 := by
            apply ih (d :: ys2) (by simp at hlen ⊢; omega)
            · intro x hx hsx; exact h1 x (by simp [hx]) hsx
            · intro hinf
              exact h2 (hinf.trans (List.suffix_cons c _).isInfix)
            · intro x hx
              simp at hx
              subst hx
              intro he
              rw [he] at hdsp
              simp [isSpaceC] at hdsp
            · intro x hx
              apply h4 x
              rw [List.getLast?_cons_cons]
              exact hx
          rw [hwc, joinWords_cons_head, ← hwd, hih]

theorem dropWhile_eq_self_of_head (p : Char → Bool) (l : Str)
    (h : ∀ c, l.head? = some c → p c = false) : l.dropWhile p = l := by
  cases l with
  | nil => rfl
  | cons c cs =>
    rw [List.dropWhile_cons, h c rfl]
    simp

theorem stripS_eq_self (y : Str)
    (hh : ∀ c, y.head? = some c → isSpaceC c = false)
    (hl : ∀ c, y.getLast? = some c → isSpaceC c = false) : stripS y = y := by
  have h1 : dropLead y = y := dropWhile_eq_self_of_head _ _ hh
  rw [stripS, h1, dropTrail]
  rw [dropWhile_eq_self_of_head _ _ (fun c hc => hl c (by rwa [← List.head?_reverse]))]
  exact List.reverse_reverse y

theorem foldl_replaceAll_fixpoint (l : List (Str × Str)) :
    ∀ y : Str, (∀ p ∈ l, replaceAll y p.1 p.2 = y) →
      l.foldl (fun s p => replaceAll s p.1 p.2) y = y := by
  induction l with
  | nil => intro y _; rfl
  | cons q l ih =>
    intro y hy
    rw [List.foldl_cons, hy q (by simp)]
    exact ih y (fun p hp => hy p (by simp [hp]))

theorem map_eq_self_of_fixed (f : Char → Char) (l : Str)
    (h : ∀ c ∈ l, f c = c) : l.map f = l := by
  induction l with
  | nil => rfl
  | cons c cs ih =>
    rw [List.map_cons, h c (by simp), ih (fun x hx => h x (by simp [hx]))]

theorem filter_eq_self_of_all (p : Char → Bool) (l : Str)
    (h : ∀ c ∈ l, p c = true) : l.filter p = l := by
  induction l with
  | nil => rfl
  | cons c cs ih =>
    rw [List.filter_cons, if_pos (h c (by simp)), ih (fun x hx => h x (by simp [hx]))]

/-- normalize_company_name is the identity on strings in normal form. -/
theorem normalizeCompanyName_fixpoint (y : Str) (hy : normalFormB y = true) :
    normalizeCompanyName y = y := by
  cases hyy : y with
  | nil => rfl
  | cons a ys =>
    rw [← hyy]
    rw [normalFormB] at hy
    simp only [Bool.and_eq_true] at hy
    obtain ⟨⟨⟨hall, hhead⟩, hlast⟩, hkeys⟩ := hy
    rw [List.all_eq_true] at hall
    rw [List.all_eq_true] at hkeys
    have hchar : ∀ c ∈ y, isLowerAlphaC c = false ∧ isPunctC c = false ∧
        (isSpaceC c = true → c = ' ') := by
      intro c hc
      have := hall c hc
      simp only [Bool.and_eq_true, Bool.not_eq_true', Bool.or_eq_true,
        decide_eq_true_eq] at this
      exact ⟨this.1.1, this.1.2, fun hs => by
        rcases this.2 with h | h
        · exact h
        · rw [h] at hs; exact absurd hs (by simp)⟩
    have hnokey : ∀ p ∈ replacementPairs, containsSub p.1 y = false := by
      intro p hp
      have := hkeys p hp
      simpa using this
    have hh : ∀ c, y.head? = some c → c ≠ ' ' ∧ isSpaceC c = false := by
      intro c hc
      rw [hc] at hhead
      simp only [optAllB, Bool.not_eq_true', decide_eq_false_iff_not] at hhead
      refine ⟨hhead, ?_⟩
      by_contra hsp
      rw [Bool.not_eq_false] at hsp
      have hmem : c ∈ y := by
        rw [hyy] at hc ⊢
        simp only [List.head?_cons, Option.some.injEq] at hc
        simp [← hc]
      exact hhead ((hchar c hmem).2.2 hsp)
    have hl : ∀ c, y.getLast? = some c → c ≠ ' ' ∧ isSpaceC c = false := by
      intro c hc
      rw [hc] at hlast
      simp only [optAllB, Bool.not_eq_true', decide_eq_false_iff_not] at hlast
      refine ⟨hlast, ?_⟩
      by_contra hsp
      rw [Bool.not_eq_false] at hsp
      have hmem : c ∈ y := List.mem_of_mem_getLast? hc
      exact hlast ((hchar c hmem).2.2 hsp)
    have e1 : stripS y = y :=
      stripS_eq_self y (fun c hc => (hh c hc).2) (fun c hc => (hl c hc).2)
    have e2 : y.map toUpperC = y :=
      map_eq_self_of_fixed _ _ (fun c hc => by simp [toUpperC, (hchar c hc).1])
    have e3 : replacementPairs.foldl (fun s p => replaceAll s p.1 p.2) y = y := by
      apply foldl_replaceAll_fixpoint
      intro p hp
      apply replaceGo_of_not_infix
      intro hinf
      have := hnokey p hp
      rw [(containsSub_iff p.1 y).mpr hinf] at this
      exact Bool.true_eq_false.mp this
    have e4 : removePunct y = y := by
      apply filter_eq_self_of_all
      intro c hc
      simp [(hchar c hc).2.1]
    have e5 : joinWords (wordsOf y) = y := by
      apply joinWords_wordsOf_canonical y.length y le_rfl
      · exact fun c hc hs => (hchar c hc).2.2 hs
      · intro hinf
        have hmem : ("  ".toList, " ".toList) ∈ replacementPairs := by
          simp [replacementPairs]
        have := hnokey _ hmem
        rw [show ("  ".toList : Str) = [' ', ' '] from rfl,
          (containsSub_iff [' ', ' '] y).mpr hinf] at this
        exact Bool.true_eq_false.mp this
      · exact fun c hc => (hh c hc).1
      · exact fun c hc => (hl c hc).1
    rw [normalizeCompanyName, if_neg (by rw [hyy]; simp)]
    simp only
    rw [e1, e2, e3, e4]
    exact e5

/-- C6 amended: normalize_company_name is not idempotent in general (a second
application can rewrite the first result further, as the counterexample
"LIMI.TED" → "LIMITED" → "LTD" shows); it is idempotent exactly on the inputs
whose normalized form is in normal form, i.e. contains no replacement key, no
removable punctuation, no lowercase letter and only canonical single spacing —
on such inputs the normalizer fixes its own output. -/
theorem C6_normalize_idempotent_on_normal_forms (x : Str)
    (h : normalFormB (normalizeCompanyName x) = true) :
    normalizeCompanyName (normalizeCompanyName x) = normalizeCompanyName x :=
  normalizeCompanyName_fixpoint (normalizeCompanyName x) h

theorem C6_normalize_idempotent_on_normal_forms_witness :
    normalizeCompanyName (normalizeCompanyName ("Acme Steel Ltd.".toList)) =
      normalizeCompanyName ("Acme Steel Ltd.".toList) :=
  C6_normalize_idempotent_on_normal_forms ("Acme Steel Ltd.".toList) (by decide)

/-! ## gemini_api.py: two-pass chunk summarization -/

def natToStr (n : Nat) : Str := (Nat.repr n).toList

def intercalateStr (sep : Str) : List Str → Str
  | [] => []
  | [x] => x
  | x :: xs => x ++ sep ++ intercalateStr sep xs

/-- One labelled chunk summary of Pass 2. -/
def sectionLabel (i : Nat) (s : Str) : Str :=
  "=== Section ".toList ++ natToStr i ++ " Summary ===\n".toList ++ s

/-- The Pass-2 input of summarize_chunked_pdf: the surviving chunk summaries,
labelled "Section 1", "Section 2", ... in order and joined by blank lines. -/
def combineSummaries (sums : List Str) : Str :=
  intercalateStr ('\n' :: '\n' :: []) (sums.enum.map (fun p => sectionLabel (p.1 + 1) p.2))

/-- summarize_chunked_pdf from src/gemini_api.py. The external Gemini call is
an oracle `call content prompt` that either returns a summary or raises; a
chunk whose call raises is skipped, and if no chunk summary survives, the
function raises instead of summarizing. The Pass-2 call's outcome is returned
as is. -/
def summarizeChunkedPdf (call : Str → Str → Except Str Str)
    (chunkPrompt combinePrompt : Str) (chunks : List Str) : Except Str Str :=
  let sums := chunks.filterMap (fun c => (call c chunkPrompt).toOption)
  if sums.isEmpty then .error ("Failed to summarize any chunks".toList)
  else call (combineSummaries sums) combinePrompt

/-- C7: in the multi-chunk path, a chunk whose call raises is skipped and
excluded from Pass 2 while the others are summarized: with three chunks where
the second call raises, the Pass-2 input is built from the summaries of chunks
1 and 3 only, labelled in order; and when every chunk's call raises,
summarize_chunked_pdf raises instead of producing a summary. -/
theorem C7_chunk_failures_skipped :
    (∀ (call : Str → Str → Except Str Str) (cp fp c1 c2 c3 s1 s3 e : Str),
      call c1 cp = .ok s1 → call c2 cp = .error e → call c3 cp = .ok s3 →
      summarizeChunkedPdf call cp fp [c1, c2, c3] =
        call ("=== Section 1 Summary ===\n".toList ++ s1 ++
          "\n\n=== Section 2 Summary ===\n".toList ++ s3) fp) ∧
    (∀ (call : Str → Str → Except Str Str) (cp fp : Str) (chunks : List Str),
      (∀ c ∈ chunks, ∃ err, call c cp = .error err) →
      ∃ err, summarizeChunkedPdf call cp fp chunks = .error err) := by
  constructor
  · intro call cp fp c1 c2 c3 s1 s3 e h1 h2 h3
    rw [summarizeChunkedPdf]
    simp only [List.filterMap, h1, h2, h3, Except.toOption]
    rw [if_neg (by simp)]
    congr 1
    simp [combineSummaries, List.enum, intercalateStr, sectionLabel, natToStr, Nat.repr]
    rfl
  · intro call cp fp chunks hall
    rw [summarizeChunkedPdf]
    have hnone : chunks.filterMap (fun c => (call c cp).toOption) = [] := by
      rw [List.filterMap_eq_nil_iff]
      intro c hc
      obtain ⟨err, herr⟩ := hall c hc
      simp [herr, Except.toOption]
    rw [hnone]
    exact ⟨_, rfl⟩

theorem C7_chunk_failures_skipped_witness :
    (summarizeChunkedPdf
      (fun c _ => if c = "B".toList then .error ("boom".toList) else .ok ('s' :: c))
      ("p".toList) ("q".toList) ["A".toList, "B".toList, "C".toList] =
      .ok ('s' :: ("=== Section 1 Summary ===\nsA\n\n=== Section 2 Summary ===\nsC".toList))) ∧
    (∃ err, summarizeChunkedPdf (fun _ _ => .error ("boom".toList))
      ("p".toList) ("q".toList) ["A".toList, "B".toList, "C".toList] = .error err) := by
  constructor
  · have h := C7_chunk_failures_skipped.1
      (fun c _ => if c = "B".toList then .error ("boom".toList) else .ok ('s' :: c))
      ("p".toList) ("q".toList) ("A".toList) ("B".toList) ("C".toList)
      ('s' :: "A".toList) ('s' :: "C".toList) ("boom".toList)
      rfl rfl rfl
    rw [h]
    rfl
  · exact C7_chunk_failures_skipped.2 (fun _ _ => .error ("boom".toList))
      ("p".toList) ("q".toList) ["A".toList, "B".toList, "C".toList]
      (fun c _ => ⟨("boom".toList), rfl⟩)

/-! ## pdf_processor.py: section detection and chunking -/

/-- The financial section keywords of detect_sections. -/
def sectionKeywords : List Str :=
  ["revenue", "profit", "guidance", "outlook", "results", "financial",
   "operations", "management", "discussion", "analysis", "highlights",
   "summary", "overview", "conclusion", "appendix", "annexure"].map String.toList

/-- Python `str.isupper` over ASCII: at least one letter and no lowercase letter. -/
def isUpperPy (s : Str) : Bool := s.any isUpperAlphaC && !(s.any isLowerAlphaC)

/-- The regex `^\d+[\.\)]\s+[A-Z]` of detect_sections pattern 2. -/
def matchNumbered (s : Str) : Bool :=
  match s with
  | [] => false
  | c :: _ =>
    isDigitC c &&
      (match s.dropWhile isDigitC with
       | [] => false
       | d :: rest2 =>
         (d = '.' || d = ')') &&
           (match rest2 with
            | [] => false
            | e :: _ =>
              isSpaceC e &&
                (match rest2.dropWhile isSpaceC with
                 | [] => false
                 | f :: _ => isUpperAlphaC f)))

/-- The header heuristic of detect_sections for the line at index `i`:
`prev` is `lines[i-1]` when `i > 0` and `rest` is `lines[i+1:]`
(so `rest ≠ []` exactly when `i + 1 < len(lines)`). Lines whose stripped form
is shorter than 3 characters are skipped. -/
def headerB (prev : Option Str) (line : Str) (rest : List Str) : Bool :=
  let ls := stripS line
  if ls.length < 3 then false
  else
    let p1 := isUpperPy ls && decide (ls.length < 100) && decide ((wordsOf ls).length < 10)
    let p2 := matchNumbered ls
    let p3 := sectionKeywords.any (fun kw => containsSub kw (ls.map toLowerC)) &&
      decide (ls.length < 150)
    let wc := (wordsOf ls).length
    let p4 := (decide (3 ≤ wc) && decide (wc ≤ 8)) &&
      (match prev with
       | none => false
       | some pl => decide (stripS pl = [])) &&
      (match rest with
       | [] => false
       | nl :: _ => decide (stripS nl ≠ []))
    p1 || p2 || p3 || p4

/-- A detected section: title, line range, and derived character range. -/
structure PSection where
  title : Str
  lineStart : Nat
  lineEnd : Nat
  charStart : Nat
  charEnd : Nat
deriving DecidableEq

/-- The header-scanning loop of detect_sections, yielding
(title, start line, end line) triples. -/
def secGo (n : Nat) : Nat → Option Str → List Str → Nat → Str → List (Str × Nat × Nat)
  | _, _, [], curStart, curTitle =>
    if curStart < n then [(curTitle, curStart, n)] else []
  | i, prev, line :: rest, curStart, curTitle =>
    if headerB prev line rest then
      (if curStart < i then [(curTitle, curStart, i)] else []) ++
        secGo n (i + 1) (some line) rest i (stripS line)
    else
      secGo n (i + 1) (some line) rest curStart curTitle

/-- Cumulative character positions of line starts (+1 per newline). -/
def linePositions (lines : List Str) : List Nat :=
  lines.scanl (fun acc l => acc + l.length + 1) 0

/-- detect_sections from src/pdf_processor.py. -/
def detectSections (text : Str) : List PSection :=
  let lines := linesOf text
  let n := lines.length
  let pos := linePositions lines
  (secGo n 0 none lines 0 ("Introduction".toList)).map
    (fun ts => { title := ts.1, lineStart := ts.2.1, lineEnd := ts.2.2,
                 charStart := pos.getD ts.2.1 0,
                 charEnd := pos.getD (min ts.2.2 n) 0 })

/-- One run of the while loop of chunk_text_fixed_size, with fuel; `none`
means the loop did not finish within `fuel` iterations (the source loop can
fail to terminate). The float comparison `break_point > len(chunk) * 0.8` is
modelled by the exact rational 4/5. -/
def fixGo (text : Str) (maxC ov : Nat) : Nat → Int → List Str → Option (List Str)
  | 0, _, _ => none
  | fuel + 1, start, acc =>
    if start < (text.length : Int) then
      let endI : Int := min (start + (maxC : Int)) (text.length : Int)
      let chunk := pySlice text start endI
      let res :=
        if endI < (text.length : Int) then
          let lp := rfindFrom chunk '.' (chunk.length - 200)
          let ln := rfindFrom chunk '\n' (chunk.length - 200)
          let bp := max lp ln
          if (chunk.length : Int) * 4 < bp * 5 then
            (chunk.take (bp.toNat + 1), start + bp + 1)
          else (chunk, endI)
        else (chunk, endI)
      fixGo text maxC ov fuel (res.2 - (ov : Int)) (acc ++ [stripS res.1])
    else some acc

/-- chunk_text_fixed_size from src/pdf_processor.py (with fuel). -/
def chunkTextFixedSize (fuel : Nat) (text : Str) (maxC ov : Nat) : Option (List Str) :=
  fixGo text maxC ov fuel 0 []

/-- One run of the while loop of chunk_text_page_based, with fuel. -/
def pageGo (text : Str) (chunkSize ov : Nat) : Nat → Int → List Str → Option (List Str)
  | 0, _, _ => none
  | fuel + 1, start, acc =>
    if start < (text.length : Int) then
      let endI : Int := min (start + (chunkSize : Int)) (text.length : Int)
      let chunk0 := pySlice text start endI
      let chunk :=
        if 0 < start && 0 < ov then
          let prev := acc.getLastD []
          let ovT := if ov < prev.length then lastN ov prev else prev
          ovT ++ '\n' :: '\n' :: chunk0
        else chunk0
      pageGo text chunkSize ov fuel (endI - (ov : Int)) (acc ++ [stripS chunk])
    else some acc

/-- chunk_text_page_based from src/pdf_processor.py (with fuel). The page
estimates use integer division; the source raises ZeroDivisionError on empty
text, where Nat division yields 0 instead. -/
def chunkTextPageBased (fuel : Nat) (text : Str) (maxC ov : Nat) : Option (List Str) :=
  let estimatedPages := max 1 (text.length / 2000)
  let charsPerPage := text.length / estimatedPages
  let pagesPerChunk := max 1 (maxC / charsPerPage)
  pageGo text (pagesPerChunk * charsPerPage) ov fuel 0 []

/-- The section-accumulating loop of chunk_text_semantic; `fuel` only feeds
the fixed-size subcalls for oversized sections. -/
def semGo (text : Str) (maxC ov : Nat) (fuel : Nat) :
    List PSection → List Str → Str → Option (List Str)
  | [], chunks, current =>
    some (if current.isEmpty then chunks else chunks ++ [stripS current])
  | sec :: rest, chunks, current =>
    let st := sliceN text sec.charStart sec.charEnd
    if maxC < st.length then
      let chunks1 := if current.isEmpty then chunks else chunks ++ [stripS current]
      match chunkTextFixedSize fuel st maxC ov with
      | none => none
      | some subs => semGo text maxC ov fuel rest (chunks1 ++ subs) []
    else if maxC < current.length + st.length && !current.isEmpty then
      let chunks1 := chunks ++ [stripS current]
      let current1 :=
        if 0 < ov && 0 < chunks1.length then
          let prev := chunks1.getLastD []
          let ovT := if ov < prev.length then lastN ov prev else prev
          ovT ++ '\n' :: '\n' :: st
        else st
      semGo text maxC ov fuel rest chunks1 current1
    else
      let current1 := if current.isEmpty then st else current ++ '\n' :: '\n' :: st
      semGo text maxC ov fuel rest chunks current1

/-- chunk_text_semantic from src/pdf_processor.py. -/
def chunkTextSemantic (fuel : Nat) (text : Str) (maxC ov : Nat) : Option (List Str) :=
  let secs := detectSections text
  if secs.isEmpty then chunkTextPageBased fuel text maxC ov
  else semGo text maxC ov fuel secs [] []

/-! ## C2: the fixed-size and page-based loops do not terminate -/

theorem fixGo_abc_stuck :
    ∀ (fuel : Nat) (acc : List Str),
      fixGo ("abc".toList) 500000 50000 fuel (-49997) acc = none := by
  intro fuel
  induction fuel with
  | zero => intro acc; rfl
  | succ fuel ih =>
    intro acc
    rw [fixGo]
    norm_num
    exact ih _

theorem pageGo_abc_stuck :
    ∀ (fuel : Nat) (acc : List Str),
      pageGo ("abc".toList) 499998 50000 fuel (-49997) acc = none := by
  intro fuel
  induction fuel with
  | zero => intro acc; rfl
  | succ fuel ih =>
    intro acc
    rw [pageGo]
    norm_num
    exact ih _

/-- C2: refuted as a code bug. Once the window end reaches the end of the
text, the next start is set to `end - overlap_chars`, which is smaller than
the text length whenever overlap_chars > 0, so the while loops of
chunk_text_fixed_size and chunk_text_page_based rescan the final window
forever: on the nonempty text "abc" with the default parameters
(max_chunk_size = 500000, overlap_chars = 50000) neither loop terminates for
any number of iterations. -/
theorem C2_chunking_loops_diverge :
    (∀ fuel : Nat, chunkTextFixedSize fuel ("abc".toList) 500000 50000 = none) ∧
    (∀ fuel : Nat, chunkTextPageBased fuel ("abc".toList) 500000 50000 = none) := by
  constructor
  · intro fuel
    cases fuel with
    | zero => rfl
    | succ fuel =>
      rw [chunkTextFixedSize, fixGo]
      norm_num
      exact fixGo_abc_stuck _ _
  · intro fuel
    cases fuel with
    | zero => rfl
    | succ fuel =>
      rw [chunkTextPageBased]
      norm_num
      rw [pageGo]
      norm_num
      exact pageGo_abc_stuck _ _

/-! ## C4: detect_sections never returns an empty list -/

theorem linesOf_cons (c : Char) (s : Str) :
    linesOf (c :: s) =
      if c = '\n' then [] :: linesOf s
      else (c :: (linesOf s).headD []) :: (linesOf s).tail := by
  simp only [linesOf, List.foldr_cons]

theorem linesOf_ne_nil (s : Str) : linesOf s ≠ [] := by
  cases s with
  | nil => simp [linesOf]
  | cons c cs =>
    rw [linesOf_cons]
    split <;> simp

/-- Scanner deciding that no line of the text passes the header heuristic. -/
def nhGo : Option Str → List Str → Bool
  | _, [] => true
  | prev, l :: r => !headerB prev l r && nhGo (some l) r

def noHeadersB (text : Str) : Bool := nhGo none (linesOf text)

theorem secGo_no_headers (n : Nat) :
    ∀ (rest : List Str) (i : Nat) (prev : Option Str) (curStart : Nat) (curTitle : Str),
      nhGo prev rest = true →
      secGo n i prev rest curStart curTitle =
        if curStart < n then [(curTitle, curStart, n)] else [] := by
  intro rest
  induction rest with
  | nil => intro i prev curStart curTitle _; rfl
  | cons l r ih =>
    intro i prev curStart curTitle hnh
    rw [nhGo, Bool.and_eq_true, Bool.not_eq_true'] at hnh
    rw [secGo, if_neg (by rw [hnh.1]; exact Bool.false_ne_true)]
    exact ih (i + 1) (some l) curStart curTitle hnh.2

theorem secGo_ne_nil (n : Nat) :
    ∀ (rest : List Str) (i : Nat) (prev : Option Str) (curStart : Nat) (curTitle : Str),
      i + rest.length = n → curStart < n →
      secGo n i prev rest curStart curTitle ≠ [] := by
  intro rest
  induction rest with
  | nil =>
    intro i prev curStart curTitle hn hcs
    rw [secGo, if_pos hcs]
    simp
  | cons l r ih =>
    intro i prev curStart curTitle hn hcs
    rw [secGo]
    split
    · intro hemp
      rcases List.append_eq_nil.mp hemp with ⟨_, h2⟩
      exact ih (i + 1) (some l) i (stripS l) (by simp at hn ⊢; omega)
        (by simp at hn; omega) h2
    · exact ih (i + 1) (some l) curStart curTitle (by simp at hn ⊢; omega) hcs

/-- detect_sections always yields at least one section: the scanning loop ends
by appending a final section whenever the current start is below the line
count, and the line count of any text is at least 1. -/
theorem detectSections_ne_nil (text : Str) : detectSections text ≠ [] := by
  rw [detectSections]
  simp only [ne_eq, List.map_eq_nil_iff]
  apply secGo_ne_nil
  · omega
  · have := linesOf_ne_nil text
    cases h : linesOf text with
    | nil => exact absurd h this
    | cons l ls => simp [h]

theorem scanl_getD (f : Nat → Str → Nat) :
    ∀ (lines : List Str) (init k : Nat), k ≤ lines.length →
      (lines.scanl f init).getD k 0 = (lines.take k).foldl f init := by
  intro lines
  induction lines with
  | nil =>
    intro init k hk
    have hk0 : k = 0 := by simpa using hk
    subst hk0
    rfl
  | cons l ls ih =>
    intro init k hk
    rw [List.scanl_cons]
    cases k with
    | zero => rfl
    | succ k =>
      simp only [List.getD_cons_succ, List.take_succ_cons, List.foldl_cons]
      exact ih (f init l) k (by simpa using hk)

theorem linesOf_total_length :
    ∀ s : Str, (linesOf s).foldl (fun acc l => acc + l.length + 1) 0 = s.length + 1 := by
  have key : ∀ (gs : List Str) (i : Nat),
      gs.foldl (fun acc l => acc + l.length + 1) i =
        gs.foldl (fun acc l => acc + l.length + 1) 0 + i := by
    intro gs
    induction gs with
    | nil => intro i; simp
    | cons g gs ih =>
      intro i
      simp only [List.foldl_cons]
      rw [ih (i + g.length + 1), ih (0 + g.length + 1)]
      omega
  intro s
  induction s with
  | nil => rfl
  | cons c cs ih =>
    rw [linesOf_cons]
    split
    · simp only [List.foldl_cons, List.length_nil]
      rw [key, ih]
      simp only [List.length_cons]
    · obtain ⟨h, t, hht⟩ := List.exists_cons_of_ne_nil (linesOf_ne_nil cs)
      rw [hht]
      simp only [List.headD_cons, List.tail_cons, List.foldl_cons]
      rw [hht] at ih
      simp only [List.foldl_cons] at ih
      rw [key]
      rw [key] at ih
      simp only [List.length_cons] at *
      omega

theorem linePositions_getD_zero (lines : List Str) :
    (linePositions lines).getD 0 0 = 0 := by
  rw [linePositions, scanl_getD _ lines 0 0 (by omega)]
  rfl

theorem linePositions_getD_length (text : Str) :
    (linePositions (linesOf text)).getD (linesOf text).length 0 = text.length + 1 := by
  rw [linePositions, scanl_getD _ _ 0 _ le_rfl, List.take_length]
  exact linesOf_total_length text

/-- C4 amended: on nonempty cleaned text in which no line passes any of the
four header heuristics, detect_sections does not return an empty list: it
returns exactly one section titled "Introduction" spanning all lines (character
range 0 to length+1), and chunk_text_semantic therefore takes the semantic
path, not page-based chunking; when the text fits in max_chunk_size the result
is the whole stripped text as a single chunk. -/
theorem C4_no_headers_single_section (text : Str) (fuel maxC ov : Nat)
    (hne : text ≠ []) (hnh : noHeadersB text = true) (hfit : text.length ≤ maxC) :
    detectSections text =
      [{ title := "Introduction".toList, lineStart := 0,
         lineEnd := (linesOf text).length,
         charStart := 0, charEnd := text.length + 1 }] ∧
    chunkTextSemantic fuel text maxC ov = some [stripS text] := by
  have hlpos : 0 < (linesOf text).length := by
    cases h : linesOf text with
    | nil => exact absurd h (linesOf_ne_nil text)
    | cons l ls => simp
  have hdet : detectSections text =
      [{ title := "Introduction".toList, lineStart := 0,
         lineEnd := (linesOf text).length,
         charStart := 0, charEnd := text.length + 1 }] := by
    simp only [detectSections]
    rw [secGo_no_headers _ (linesOf text) 0 none 0 _ hnh, if_pos hlpos]
    simp only [List.map_cons, List.map_nil, min_self]
    rw [linePositions_getD_zero, linePositions_getD_length]
  refine ⟨hdet, ?_⟩
  rw [chunkTextSemantic]
  simp only [hdet, List.isEmpty_cons, Bool.false_eq_true, if_false]
  rw [semGo]
  have hst : sliceN text 0 (text.length + 1) = text := by
    rw [sliceN, List.drop_zero]
    exact List.take_of_length_le (by omega)
  simp only [hst]
  rw [if_neg (by omega)]
  rw [if_neg (by simp)]
  simp only [List.isEmpty_nil, if_pos rfl]
  rw [semGo]
  rw [if_neg (by simp [List.isEmpty_iff, hne])]
  simp

theorem C4_no_headers_single_section_witness :
    detectSections ("hello world".toList) =
      [{ title := "Introduction".toList, lineStart := 0, lineEnd := 1,
         charStart := 0, charEnd := 12 }] ∧
    chunkTextSemantic 0 ("hello world".toList) 500000 50000 =
      some ["hello world".toList] := by
  have h := C4_no_headers_single_section ("hello world".toList) 0 500000 50000
    (by decide) (by decide) (by decide)
  refine ⟨?_, ?_⟩
  · rw [h.1]; rfl
  · rw [h.2]; rfl

/-- C4 counterexample: for the nonempty text "hello world", in which no line
passes any header heuristic, detect_sections does not return an empty list
(it returns the single "Introduction" section), and chunk_text_semantic does
not fall back to page-based chunking: the semantic path returns the whole
text as one chunk with no fuel, while the page-based strategy, run with fuel
9, is still looping. -/
theorem C4_detect_sections_counterexample :
    ("hello world".toList ≠ ([] : Str)) ∧
    noHeadersB ("hello world".toList) = true ∧
    detectSections ("hello world".toList) ≠ [] ∧
    chunkTextSemantic 0 ("hello world".toList) 500000 50000 =
      some ["hello world".toList] ∧
    chunkTextPageBased 9 ("hello world".toList) 500000 50000 = none := by
  refine ⟨by decide, by decide, by decide, by decide, by decide⟩

/-! ## C1 and C3: concrete large inputs with detected sections of 200000 and
450000 (and 10) characters -/

def aRep (n : Nat) : Str := List.replicate n 'a'

def wREV : Str := ['R', 'E', 'V', 'E', 'N', 'U', 'E']

def wPRO : Str := ['P', 'R', 'O', 'F', 'I', 'T']

def wSUM : Str := ['S', 'U', 'M', 'M', 'A', 'R', 'Y']

/-- First section of both inputs: a "REVENUE" header line and one long body
line; 200000 characters including the trailing newline. -/
def part1 : Str := wREV ++ '\n' :: (aRep 199991 ++ ['\n'])

/-- Second (final) section of T0: 450000 characters. -/
def part2 : Str := wPRO ++ '\n' :: aRep 449993

/-- Second (middle) section of T1: 450000 characters including the trailing
newline. -/
def part2b : Str := wPRO ++ '\n' :: (aRep 449992 ++ ['\n'])

/-- Third section of T1: 10 characters. -/
def part3 : Str := wSUM ++ '\n' :: aRep 2

/-- 650000-character text with two detected sections (200000 and 450000). -/
def T0 : Str := part1 ++ part2

/-- 650010-character text with three detected sections (200000, 450000, 10). -/
def T1 : Str := part1 ++ (part2b ++ part3)

theorem aRep_length (n : Nat) : (aRep n).length = n := List.length_replicate n 'a'

theorem part1_length : part1.length = 200000 := by
  rw [part1, List.length_append, List.length_cons, List.length_append, aRep_length]
  rfl

theorem part2_length : part2.length = 450000 := by
  rw [part2, List.length_append, List.length_cons, aRep_length]
  rfl

theorem part2b_length : part2b.length = 450000 := by
  rw [part2b, List.length_append, List.length_cons, List.length_append, aRep_length]
  rfl

theorem part3_length : part3.length = 10 := by
  rw [part3, List.length_append, List.length_cons, aRep_length]
  rfl

theorem T0_length : T0.length = 650000 := by
  rw [T0, List.length_append, part1_length, part2_length]

theorem T1_length : T1.length = 650010 := by
  rw [T1, List.length_append, List.length_append, part1_length, part2b_length,
    part3_length]

theorem aRep_no_newline (n : Nat) : ∀ c ∈ aRep n, c ≠ '\n' := by
  intro c hc
  rw [aRep, List.mem_replicate] at hc
  rw [hc.2]
  decide

theorem linesOf_word_append (w z : Str) (hw : ∀ c ∈ w, c ≠ '\n') :
    linesOf (w ++ '\n' :: z) = w :: linesOf z := by
  induction w with
  | nil =>
    rw [List.nil_append, linesOf_cons, if_pos rfl]
  | cons a w ih =>
    rw [List.cons_append, linesOf_cons,
      if_neg (hw a (by simp)), ih (fun c hc => hw c (by simp [hc]))]
    simp

theorem linesOf_word (w : Str) (hw : ∀ c ∈ w, c ≠ '\n') : linesOf w = [w] := by
  induction w with
  | nil => rfl
  | cons a w ih =>
    rw [linesOf_cons, if_neg (hw a (by simp)), ih (fun c hc => hw c (by simp [hc]))]
    simp

theorem T0_eq_lines_form :
    T0 = wREV ++ '\n' :: (aRep 199991 ++ '\n' :: (wPRO ++ '\n' :: aRep 449993)) := by
  simp only [T0, part1, part2, List.append_assoc, List.cons_append,
    List.singleton_append, List.nil_append]

theorem linesOf_T0 : linesOf T0 = [wREV, aRep 199991, wPRO, aRep 449993] := by
  rw [T0_eq_lines_form, linesOf_word_append _ _ (by decide),
    linesOf_word_append _ _ (aRep_no_newline _),
    linesOf_word_append _ _ (by decide),
    linesOf_word _ (aRep_no_newline _)]

theorem T1_eq_lines_form :
    T1 = wREV ++ '\n' :: (aRep 199991 ++ '\n' :: (wPRO ++ '\n' ::
      (aRep 449992 ++ '\n' :: (wSUM ++ '\n' :: aRep 2)))) := by
  simp only [T1, part1, part2b, part3, List.append_assoc, List.cons_append,
    List.singleton_append, List.nil_append]

theorem linesOf_T1 :
    linesOf T1 = [wREV, aRep 199991, wPRO, aRep 449992, wSUM, aRep 2] := by
  rw [T1_eq_lines_form, linesOf_word_append _ _ (by decide),
    linesOf_word_append _ _ (aRep_no_newline _),
    linesOf_word_append _ _ (by decide),
    linesOf_word_append _ _ (aRep_no_newline _),
    linesOf_word_append _ _ (by decide),
    linesOf_word _ (aRep_no_newline _)]

theorem aRep_succ (m : Nat) : aRep (m + 1) = 'a' :: aRep m := by
  rw [aRep, aRep, List.replicate_succ]

theorem aRep_succ' (m : Nat) : aRep (m + 1) = aRep m ++ ['a'] := by
  rw [aRep, aRep, List.replicate_succ']

theorem stripS_aRep (n : Nat) : stripS (aRep n) = aRep n := by
  have hhead : ∀ c, (aRep n).head? = some c → isSpaceC c = false := by
    intro c hc
    cases n with
    | zero => simp [aRep] at hc
    | succ m =>
      rw [aRep_succ, List.head?_cons, Option.some.injEq] at hc
      rw [← hc]
      decide
  have hrev : (aRep n).reverse = aRep n := by
    rw [aRep]
    exact List.reverse_replicate n 'a'
  rw [stripS, dropLead, dropWhile_eq_self_of_head _ _ hhead, dropTrail, hrev,
    dropWhile_eq_self_of_head _ _ hhead, hrev]

theorem groupsOf_aRep (n : Nat) : groupsOf (aRep n) = [aRep n] := by
  induction n with
  | zero => rfl
  | succ m ih =>
    rw [aRep_succ, groupsOf_cons, if_neg (by decide), ih]
    simp only [List.headD_cons, List.tail_cons]

theorem wordsOf_aRep_succ (m : Nat) : wordsOf (aRep (m + 1)) = [aRep (m + 1)] := by
  rw [wordsOf, groupsOf_aRep, List.filter_cons, List.filter_nil]
  rw [if_pos]
  rw [aRep_succ]
  simp only [List.isEmpty_cons, Bool.not_false]

theorem contains_aRep_all_a (kw : Str) (n : Nat) (h : containsSub kw (aRep n) = true) :
    ∀ c ∈ kw, c = 'a' := by
  rw [containsSub_iff] at h
  obtain ⟨u, v, huv⟩ := h
  intro c hc
  have hmem : c ∈ aRep n := by
    rw [← huv]
    simp [hc]
  rw [aRep, List.mem_replicate] at hmem
  exact hmem.2

theorem matchNumbered_aRep (n : Nat) : matchNumbered (aRep n) = false := by
  cases n with
  | zero => rfl
  | succ m =>
    rw [aRep_succ]
    simp only [matchNumbered]
    rw [show isDigitC 'a' = false from by decide, Bool.false_and]

theorem isUpperPy_aRep (n : Nat) : isUpperPy (aRep n) = false := by
  rw [isUpperPy]
  have h : (aRep n).any isUpperAlphaC = false := by
    rw [List.any_eq_false]
    intro c hc
    rw [aRep, List.mem_replicate] at hc
    rw [hc.2]
    decide
  rw [h, Bool.false_and]

theorem keywords_not_in_aRep (n : Nat) :
    sectionKeywords.any (fun kw => containsSub kw ((aRep n).map toLowerC)) = false := by
  have hmap : (aRep n).map toLowerC = aRep n := by
    rw [aRep, List.map_replicate, show toLowerC 'a' = 'a' from by decide]
  rw [hmap, List.any_eq_false]
  have hkeys : ∀ kw ∈ sectionKeywords, ∃ c ∈ kw, c ≠ 'a' := by decide
  intro kw hkw
  intro hcont
  obtain ⟨c, hc, hca⟩ := hkeys kw hkw
  exact hca (contains_aRep_all_a kw n hcont c hc)

theorem headerB_aRep (n : Nat) (prev : Option Str) (rest : List Str) :
    headerB prev (aRep n) rest = false := by
  simp only [headerB]
  rw [stripS_aRep]
  by_cases hn : n < 3
  · rw [if_pos (by rw [aRep_length]; exact hn)]
  · rw [if_neg (by rw [aRep_length]; exact hn)]
    rw [isUpperPy_aRep, Bool.false_and, Bool.false_and, matchNumbered_aRep,
      keywords_not_in_aRep, Bool.false_and, Bool.false_or, Bool.false_or, Bool.false_or]
    obtain ⟨m, rfl⟩ : ∃ m, n = m + 1 := ⟨n - 1, by omega⟩
    rw [wordsOf_aRep_succ]
    rw [show decide (3 ≤ ([aRep (m + 1)] : List Str).length) = false from by simp,
      Bool.false_and, Bool.false_and, Bool.false_and]

theorem headerB_wREV (prev : Option Str) (rest : List Str) :
    headerB prev wREV rest = true := by
  simp only [headerB]
  rw [show stripS wREV = wREV from by decide]
  rw [if_neg (by decide)]
  rw [show (isUpperPy wREV && decide (wREV.length < 100) &&
    decide ((wordsOf wREV).length < 10)) = true from by decide, Bool.true_or,
    Bool.true_or, Bool.true_or]

theorem headerB_wPRO (prev : Option Str) (rest : List Str) :
    headerB prev wPRO rest = true := by
  simp only [headerB]
  rw [show stripS wPRO = wPRO from by decide]
  rw [if_neg (by decide)]
  rw [show (isUpperPy wPRO && decide (wPRO.length < 100) &&
    decide ((wordsOf wPRO).length < 10)) = true from by decide, Bool.true_or,
    Bool.true_or, Bool.true_or]

theorem headerB_wSUM (prev : Option Str) (rest : List Str) :
    headerB prev wSUM rest = true := by
  simp only [headerB]
  rw [show stripS wSUM = wSUM from by decide]
  rw [if_neg (by decide)]
  rw [show (isUpperPy wSUM && decide (wSUM.length < 100) &&
    decide ((wordsOf wSUM).length < 10)) = true from by decide, Bool.true_or,
    Bool.true_or, Bool.true_or]

theorem secGo_T0 (title : Str) :
    secGo 4 0 none [wREV, aRep 199991, wPRO, aRep 449993] 0 title =
      [(wREV, 0, 2), (wPRO, 2, 4)] := by
  rw [secGo, if_pos (headerB_wREV _ _), if_neg (by omega), List.nil_append,
    show stripS wREV = wREV from by decide]
  rw [secGo, if_neg (by rw [headerB_aRep]; exact Bool.false_ne_true)]
  rw [secGo, if_pos (headerB_wPRO _ _), if_pos (by omega),
    show stripS wPRO = wPRO from by decide]
  rw [secGo, if_neg (by rw [headerB_aRep]; exact Bool.false_ne_true)]
  rw [secGo, if_pos (by omega)]
  rfl

theorem secGo_T1 (title : Str) :
    secGo 6 0 none [wREV, aRep 199991, wPRO, aRep 449992, wSUM, aRep 2] 0
      title = [(wREV, 0, 2), (wPRO, 2, 4), (wSUM, 4, 6)] := by
  rw [secGo, if_pos (headerB_wREV _ _), if_neg (by omega), List.nil_append,
    show stripS wREV = wREV from by decide]
  rw [secGo, if_neg (by rw [headerB_aRep]; exact Bool.false_ne_true)]
  rw [secGo, if_pos (headerB_wPRO _ _), if_pos (by omega),
    show stripS wPRO = wPRO from by decide]
  rw [secGo, if_neg (by rw [headerB_aRep]; exact Bool.false_ne_true)]
  rw [secGo, if_pos (headerB_wSUM _ _), if_pos (by omega),
    show stripS wSUM = wSUM from by decide]
  rw [secGo, if_neg (by rw [headerB_aRep]; exact Bool.false_ne_true)]
  rw [secGo, if_pos (by omega)]
  rfl

theorem linePositions_T0 :
    linePositions [wREV, aRep 199991, wPRO, aRep 449993] = [0, 8, 200000, 200007, 650001] := by
  simp only [linePositions, List.scanl_cons, List.scanl_nil]
  norm_num [aRep_length, show (wREV : Str).length = 7 from rfl,
    show (wPRO : Str).length = 6 from rfl]

theorem linePositions_T1 :
    linePositions [wREV, aRep 199991, wPRO, aRep 449992, wSUM, aRep 2] =
      [0, 8, 200000, 200007, 650000, 650008, 650011] := by
  simp only [linePositions, List.scanl_cons, List.scanl_nil]
  norm_num [aRep_length, show (wREV : Str).length = 7 from rfl,
    show (wPRO : Str).length = 6 from rfl, show (wSUM : Str).length = 7 from rfl]

theorem detectSections_T0 :
    detectSections T0 =
      [{ title := wREV, lineStart := 0, lineEnd := 2, charStart := 0, charEnd := 200000 },
       { title := wPRO, lineStart := 2, lineEnd := 4, charStart := 200000, charEnd := 650001 }] := by
  simp only [detectSections, linesOf_T0, List.length_cons, List.length_nil]
  norm_num [linePositions_T0, secGo_T0]

theorem detectSections_T1 :
    detectSections T1 =
      [{ title := wREV, lineStart := 0, lineEnd := 2, charStart := 0, charEnd := 200000 },
       { title := wPRO, lineStart := 2, lineEnd := 4, charStart := 200000, charEnd := 650000 },
       { title := wSUM, lineStart := 4, lineEnd := 6, charStart := 650000, charEnd := 650011 }] := by
  simp only [detectSections, linesOf_T1, List.length_cons, List.length_nil]
  norm_num [linePositions_T1, secGo_T1]

theorem dropTrail_append_nl (xs : Str) : dropTrail (xs ++ ['\n']) = dropTrail xs := by
  rw [dropTrail, dropTrail, List.reverse_append]
  simp only [List.reverse_cons, List.reverse_nil, List.nil_append, List.singleton_append]
  rw [List.dropWhile_cons, if_pos (by decide : isSpaceC '\n' = true)]

theorem dropTrail_append_nonspace (xs : Str) (c : Char) (h : isSpaceC c = false) :
    dropTrail (xs ++ [c]) = xs ++ [c] := by
  rw [dropTrail, List.reverse_append]
  simp only [List.reverse_cons, List.reverse_nil, List.nil_append, List.singleton_append]
  rw [List.dropWhile_cons, if_neg (by rw [h]; exact Bool.false_ne_true)]
  simp only [List.reverse_cons, List.reverse_reverse]

/-- Chunk 1 of both runs: the first section stripped of its trailing newline. -/
def chunkREV : Str := wREV ++ '\n' :: aRep 199991

theorem chunkREV_length : chunkREV.length = 199999 := by
  rw [chunkREV, List.length_append, List.length_cons, aRep_length]
  rfl

theorem stripS_part1 : stripS part1 = chunkREV := by
  have hhead : ∀ c, part1.head? = some c → isSpaceC c = false := by
    intro c hc
    have h0 : part1.head? = some 'R' := rfl
    rw [h0, Option.some.injEq] at hc
    rw [← hc]
    decide
  rw [stripS, dropLead, dropWhile_eq_self_of_head _ _ hhead]
  have h1 : part1 = (wREV ++ '\n' :: aRep 199991) ++ ['\n'] := by
    simp only [part1, List.append_assoc, List.cons_append, List.nil_append]
  rw [h1, dropTrail_append_nl]
  have h2 : wREV ++ '\n' :: aRep 199991 = (wREV ++ '\n' :: aRep 199990) ++ ['a'] := by
    rw [show (199991 : Nat) = 199990 + 1 from rfl, aRep_succ' 199990]
    simp only [List.append_assoc, List.cons_append, List.nil_append]
  rw [chunkREV, h2, dropTrail_append_nonspace _ _ (by decide), ← h2]

theorem lastN_chunkREV : lastN 50000 chunkREV = aRep 50000 := by
  rw [lastN, chunkREV_length]
  have h : chunkREV = (wREV ++ ['\n']) ++ aRep 199991 := by
    rw [chunkREV]
    simp only [List.append_assoc, List.cons_append, List.nil_append]
  rw [h, show (199999 - 50000 : Nat) = (wREV ++ ['\n']).length + 149991 from rfl,
    List.drop_append, aRep, List.drop_replicate,
    show (199991 - 149991 : Nat) = 50000 from rfl, ← aRep]

theorem sliceN_T0_sec1 : sliceN T0 0 200000 = part1 := by
  rw [sliceN, List.drop_zero, T0, show (200000 - 0 : Nat) = 200000 from rfl,
    ← part1_length]
  exact List.take_left part1 part2

theorem sliceN_T0_sec2 : sliceN T0 200000 650001 = part2 := by
  have hdrop : List.drop 200000 T0 = part2 := by
    rw [T0, ← part1_length]
    exact List.drop_left part1 part2
  rw [sliceN, hdrop]
  exact List.take_of_length_le (by rw [part2_length]; norm_num)

theorem sliceN_T1_sec1 : sliceN T1 0 200000 = part1 := by
  rw [sliceN, List.drop_zero, T1, show (200000 - 0 : Nat) = 200000 from rfl,
    ← part1_length]
  exact List.take_left part1 _

theorem sliceN_T1_sec2 : sliceN T1 200000 650000 = part2b := by
  have hdrop : List.drop 200000 T1 = part2b ++ part3 := by
    rw [T1, ← part1_length]
    exact List.drop_left part1 _
  rw [sliceN, hdrop, show (650000 - 200000 : Nat) = 450000 from rfl, ← part2b_length]
  exact List.take_left part2b part3

theorem sliceN_T1_sec3 : sliceN T1 650000 650011 = part3 := by
  have hT1 : T1 = (part1 ++ part2b) ++ part3 := by
    rw [T1, List.append_assoc]
  have hdrop : List.drop 650000 T1 = part3 := by
    rw [hT1, show (650000 : Nat) = (part1 ++ part2b).length from by
      rw [List.length_append, part1_length, part2b_length]]
    exact List.drop_left _ part3
  rw [sliceN, hdrop]
  exact List.take_of_length_le (by rw [part3_length]; norm_num)

/-- Chunk 2 of the T0 run: 50000 overlap characters, the two-newline joiner,
and the second section. -/
def chunkT0b : Str := aRep 50000 ++ '\n' :: '\n' :: part2

theorem chunkT0b_length : chunkT0b.length = 500002 := by
  rw [chunkT0b, List.length_append, aRep_length, List.length_cons, List.length_cons,
    part2_length]

theorem stripS_chunkT0b : stripS chunkT0b = chunkT0b := by
  apply stripS_eq_self
  · intro c hc
    have h : chunkT0b.head? = some 'a' := by
      rw [chunkT0b, show (50000 : Nat) = 49999 + 1 from rfl, aRep_succ 49999,
        List.cons_append]
      rfl
    rw [h, Option.some.injEq] at hc
    rw [← hc]
    decide
  · intro c hc
    have h2 : chunkT0b = (aRep 50000 ++ '\n' :: '\n' :: (wPRO ++ '\n' :: aRep 449992)) ++ ['a'] := by
      rw [chunkT0b, part2, show (449993 : Nat) = 449992 + 1 from rfl, aRep_succ' 449992]
      simp only [List.append_assoc, List.cons_append, List.nil_append]
    rw [h2, List.getLast?_concat, Option.some.injEq] at hc
    rw [← hc]
    decide

theorem part1_ne_nil : part1 ≠ [] := by
  rw [part1]
  simp

/-- The full run of chunk_text_semantic on T0: two chunks, of 199999 and
500002 characters. -/
theorem chunkSemantic_T0 (fuel : Nat) :
    chunkTextSemantic fuel T0 500000 50000 = some [chunkREV, chunkT0b] := by
  rw [chunkTextSemantic]
  simp only [detectSections_T0, List.isEmpty_cons, Bool.false_eq_true, if_false]
  rw [semGo]
  simp only [sliceN_T0_sec1, part1_length]
  rw [if_neg (by norm_num)]
  rw [if_neg (by simp)]
  rw [if_pos (show (List.isEmpty ([] : Str)) = true from rfl)]
  rw [semGo]
  simp only [sliceN_T0_sec2, part2_length]
  rw [if_neg (by norm_num)]
  rw [if_pos (by rw [part1_length]; norm_num [part1_ne_nil])]
  rw [stripS_part1]
  rw [if_pos (by norm_num)]
  rw [show List.getLastD ([] ++ [chunkREV]) ([] : Str) = chunkREV from rfl]
  rw [if_pos (by rw [chunkREV_length]; norm_num)]
  rw [lastN_chunkREV]
  rw [semGo]
  rw [if_neg (show ¬ List.isEmpty (aRep 50000 ++ '\n' :: '\n' :: part2) = true from by
    rw [show (50000 : Nat) = 49999 + 1 from rfl, aRep_succ 49999, List.cons_append]
    simp)]
  rw [← chunkT0b, stripS_chunkT0b]
  rfl

/-- Chunk 2 of the T1 run: 50000 overlap characters, the joiner, and the
middle section stripped of its trailing newline. -/
def chunkT1b : Str := aRep 50000 ++ '\n' :: '\n' :: (wPRO ++ '\n' :: aRep 449992)

/-- Chunk 3 of the T1 run: 50000 overlap characters, the joiner, and the
third section. -/
def chunkT1c : Str := aRep 50000 ++ '\n' :: '\n' :: part3

theorem chunkT1b_length : chunkT1b.length = 500001 := by
  rw [chunkT1b, List.length_append, aRep_length, List.length_cons, List.length_cons,
    List.length_append, List.length_cons, aRep_length]
  rfl

theorem chunkT1c_length : chunkT1c.length = 50012 := by
  rw [chunkT1c, List.length_append, aRep_length, List.length_cons, List.length_cons,
    part3_length]

theorem curT1b_length : (aRep 50000 ++ '\n' :: '\n' :: part2b).length = 500002 := by
  rw [List.length_append, aRep_length, List.length_cons, List.length_cons, part2b_length]

theorem head_aRep50000_append (x : Str) :
    (aRep 50000 ++ x).head? = some 'a' := by
  rw [show (50000 : Nat) = 49999 + 1 from rfl, aRep_succ 49999, List.cons_append]
  rfl

theorem stripS_curT1b : stripS (aRep 50000 ++ '\n' :: '\n' :: part2b) = chunkT1b := by
  have hhead : ∀ c, (aRep 50000 ++ '\n' :: '\n' :: part2b).head? = some c →
      isSpaceC c = false := by
    intro c hc
    rw [head_aRep50000_append, Option.some.injEq] at hc
    rw [← hc]
    decide
  rw [stripS, dropLead, dropWhile_eq_self_of_head _ _ hhead]
  have h1 : aRep 50000 ++ '\n' :: '\n' :: part2b =
      (aRep 50000 ++ '\n' :: '\n' :: (wPRO ++ '\n' :: aRep 449992)) ++ ['\n'] := by
    rw [part2b]
    simp only [List.append_assoc, List.cons_append, List.nil_append]
  rw [h1, dropTrail_append_nl]
  have h2 : aRep 50000 ++ '\n' :: '\n' :: (wPRO ++ '\n' :: aRep 449992) =
      (aRep 50000 ++ '\n' :: '\n' :: (wPRO ++ '\n' :: aRep 449991)) ++ ['a'] := by
    rw [show (449992 : Nat) = 449991 + 1 from rfl, aRep_succ' 449991]
    simp only [List.append_assoc, List.cons_append, List.nil_append]
  rw [chunkT1b, h2, dropTrail_append_nonspace _ _ (by decide), ← h2]

theorem stripS_chunkT1c : stripS chunkT1c = chunkT1c := by
  apply stripS_eq_self
  · intro c hc
    rw [chunkT1c, head_aRep50000_append, Option.some.injEq] at hc
    rw [← hc]
    decide
  · intro c hc
    have h2 : chunkT1c = (aRep 50000 ++ '\n' :: '\n' :: (wSUM ++ '\n' :: aRep 1)) ++ ['a'] := by
      rw [chunkT1c, part3, show (2 : Nat) = 1 + 1 from rfl, aRep_succ' 1]
      simp only [List.append_assoc, List.cons_append, List.nil_append]
    rw [h2, List.getLast?_concat, Option.some.injEq] at hc
    rw [← hc]
    decide

theorem lastN_chunkT1b : lastN 50000 chunkT1b = aRep 50000 := by
  have hpre : chunkT1b = (aRep 50000 ++ '\n' :: '\n' :: (wPRO ++ ['\n'])) ++ aRep 449992 := by
    rw [chunkT1b]
    simp only [List.append_assoc, List.cons_append, List.nil_append]
  have hlen : (aRep 50000 ++ '\n' :: '\n' :: (wPRO ++ ['\n'])).length = 50009 := by
    rw [List.length_append, aRep_length, List.length_cons, List.length_cons]
    rfl
  rw [lastN, chunkT1b_length, hpre,
    show (500001 - 50000 : Nat) = 450001 from rfl,
    show (450001 : Nat) = 50009 + 399992 from rfl, ← hlen,
    List.drop_append, aRep, List.drop_replicate,
    show (449992 - 399992 : Nat) = 50000 from rfl, ← aRep]

/-- The full run of chunk_text_semantic on T1: three chunks, of 199999,
500001 and 50012 characters. -/
theorem chunkSemantic_T1 (fuel : Nat) :
    chunkTextSemantic fuel T1 500000 50000 = some [chunkREV, chunkT1b, chunkT1c] := by
  have hcur_ne : (aRep 50000 ++ '\n' :: '\n' :: part2b) ≠ [] := by
    rw [show (50000 : Nat) = 49999 + 1 from rfl, aRep_succ 49999, List.cons_append]
    simp
  have hc3_ne : ¬ List.isEmpty chunkT1c = true := by
    rw [chunkT1c, show (50000 : Nat) = 49999 + 1 from rfl, aRep_succ 49999,
      List.cons_append]
    simp
  rw [chunkTextSemantic]
  simp only [detectSections_T1, List.isEmpty_cons, Bool.false_eq_true, if_false]
  rw [semGo]
  simp only [sliceN_T1_sec1, part1_length]
  rw [if_neg (by norm_num)]
  rw [if_neg (by simp)]
  rw [if_pos (show (List.isEmpty ([] : Str)) = true from rfl)]
  rw [semGo]
  simp only [sliceN_T1_sec2, part2b_length]
  rw [if_neg (by norm_num)]
  rw [if_pos (by rw [part1_length]; norm_num [part1_ne_nil])]
  rw [stripS_part1]
  rw [if_pos (by norm_num)]
  rw [show List.getLastD ([] ++ [chunkREV]) ([] : Str) = chunkREV from rfl]
  rw [if_pos (by rw [chunkREV_length]; norm_num)]
  rw [lastN_chunkREV]
  rw [semGo]
  simp only [sliceN_T1_sec3, part3_length]
  rw [if_neg (by norm_num)]
  rw [if_pos (by rw [curT1b_length]; norm_num [hcur_ne])]
  rw [stripS_curT1b]
  rw [if_pos (by norm_num)]
  rw [show List.getLastD ([] ++ [chunkREV] ++ [chunkT1b]) ([] : Str) = chunkT1b from rfl]
  rw [if_pos (by rw [chunkT1b_length]; norm_num)]
  rw [lastN_chunkT1b]
  rw [semGo]
  rw [← chunkT1c]
  rw [if_neg hc3_ne]
  rw [stripS_chunkT1c]
  rfl

/-- C3 counterexample: the shapes the claim asserts are wrong. A text whose
two detected sections measure 200000 and 450000 characters necessarily has
650000 characters (sections tile the text), not 600000; on such a text
chunk_text_semantic returns two chunks of 199999 and 500002 characters — the
first chunk is the first section minus the trailing newline removed by strip,
and the second is 500002 characters, not 500000, because the 50000 overlap
characters and the 450000-character section are joined with a two-character
"\n\n" separator. -/
theorem C3_expected_chunks_counterexample :
    T0.length = 650000 ∧
    (detectSections T0).map (fun s => (sliceN T0 s.charStart s.charEnd).length) =
      [200000, 450000] ∧
    chunkTextSemantic 0 T0 500000 50000 = some [chunkREV, chunkT0b] ∧
    chunkREV.length = 199999 ∧
    chunkT0b.length = 500002 ∧
    chunkREV.length ≠ 200000 ∧
    chunkT0b.length ≠ 500000 := by
  refine ⟨T0_length, ?_, chunkSemantic_T0 0, chunkREV_length, chunkT0b_length,
    by rw [chunkREV_length]; norm_num, by rw [chunkT0b_length]; norm_num⟩
  rw [detectSections_T0]
  simp only [List.map_cons, List.map_nil]
  rw [sliceN_T0_sec1, sliceN_T0_sec2, part1_length, part2_length]

/-- C3 amended: for the 650000-character input whose two detected sections
measure 200000 and 450000 characters, chunk_text_semantic returns exactly two
chunks: the first is the first section stripped of its trailing newline
(199999 characters), and the second is exactly 500002 characters, consisting
of the trailing 50000 characters of chunk 1, the two-character "\n\n" joiner,
and the 450000-character second section. -/
theorem C3_semantic_two_sections_result (fuel : Nat) :
    chunkTextSemantic fuel T0 500000 50000 = some [chunkREV, chunkT0b] ∧
    chunkREV = stripS (sliceN T0 0 200000) ∧
    chunkT0b = lastN 50000 chunkREV ++ '\n' :: '\n' :: sliceN T0 200000 650001 ∧
    chunkREV.length = 199999 ∧
    chunkT0b.length = 500002 := by
  refine ⟨chunkSemantic_T0 fuel, ?_, ?_, chunkREV_length, chunkT0b_length⟩
  · rw [sliceN_T0_sec1, stripS_part1]
  · rw [lastN_chunkREV, sliceN_T0_sec2, chunkT0b]

/-- C1 counterexample: a non-trailing chunk produced by semantic chunking
exceeds max_chunk_size although no single detected section does. On T1, whose
three detected sections measure 200000, 450000 and 10 characters (all at most
500000), the middle of the three returned chunks has 500001 characters. -/
theorem C1_chunk_bound_counterexample :
    (detectSections T1).map (fun s => (sliceN T1 s.charStart s.charEnd).length) =
      [200000, 450000, 10] ∧
    chunkTextSemantic 0 T1 500000 50000 = some [chunkREV, chunkT1b, chunkT1c] ∧
    chunkT1b.length = 500001 ∧
    500000 < chunkT1b.length := by
  refine ⟨?_, chunkSemantic_T1 0, chunkT1b_length, by rw [chunkT1b_length]; norm_num⟩
  rw [detectSections_T1]
  simp only [List.map_cons, List.map_nil]
  rw [sliceN_T1_sec1, sliceN_T1_sec2, sliceN_T1_sec3, part1_length, part2b_length,
    part3_length]

theorem stripS_length_le (s : Str) : (stripS s).length ≤ s.length := by
  have h1 : (dropLead s).length ≤ s.length := (List.dropWhile_sublist _).length_le
  have h2 : (dropTrail (dropLead s)).length ≤ (dropLead s).length := by
    rw [dropTrail, List.length_reverse]
    exact le_trans (List.dropWhile_sublist _).length_le (by rw [List.length_reverse])
  exact le_trans h2 h1

theorem lastN_length_le (k : Nat) (s : Str) : (lastN k s).length ≤ k := by
  rw [lastN, List.length_drop]
  omega

theorem pySlice_window_le (s : Str) (start : Int) (maxC : Nat) :
    (pySlice s start (min (start + (maxC : Int)) (s.length : Int))).length ≤ maxC := by
  simp only [pySlice]
  rw [List.length_take, List.length_drop]
  split <;> split <;> omega

theorem fixGo_bound (text : Str) (maxC ov : Nat) :
    ∀ (fuel : Nat) (start : Int) (acc out : List Str),
      (∀ c ∈ acc, c.length ≤ maxC) →
      fixGo text maxC ov fuel start acc = some out →
      ∀ c ∈ out, c.length ≤ maxC := by
  intro fuel
  induction fuel with
  | zero =>
    intro start acc out _ h
    exact absurd h (by rw [fixGo]; simp)
  | succ fuel ih =>
    intro start acc out hacc h
    rw [fixGo] at h
    split at h
    · apply ih _ _ _ _ h
      intro c hc
      rw [List.mem_append] at hc
      rcases hc with hc | hc
      · exact hacc c hc
      · rw [List.mem_singleton] at hc
        subst hc
        have hwin : (pySlice text start
            (min (start + (maxC : Int)) (text.length : Int))).length ≤ maxC :=
          pySlice_window_le text start maxC
        refine le_trans (stripS_length_le _) ?_
        split
        · dsimp only
          split
          · exact le_trans (List.take_sublist _ _).length_le hwin
          · exact hwin
        · exact hwin
    · rw [Option.some.injEq] at h
      subst h
      exact hacc

theorem semGo_bound (text : Str) (maxC ov : Nat) (fuel : Nat) :
    ∀ (secs : List PSection) (chunks : List Str) (current : Str) (out : List Str),
      (∀ c ∈ chunks, c.length ≤ maxC + ov + 2) →
      current.length ≤ maxC + ov + 2 →
      semGo text maxC ov fuel secs chunks current = some out →
      ∀ c ∈ out, c.length ≤ maxC + ov + 2 := by
  intro secs
  induction secs with
  | nil =>
    intro chunks current out hch hcur h
    rw [semGo] at h
    rw [Option.some.injEq] at h
    subst h
    split
    · exact hch
    · intro c hc
      rw [List.mem_append] at hc
      rcases hc with hc | hc
      · exact hch c hc
      · rw [List.mem_singleton] at hc
        subst hc
        exact le_trans (stripS_length_le _) hcur
  | cons sec rest ih =>
    intro chunks current out hch hcur h
    rw [semGo] at h
    have hflush : ∀ c ∈ (if current.isEmpty then chunks else chunks ++ [stripS current]),
        c.length ≤ maxC + ov + 2 := by
      split
      · exact hch
      · intro c hc
        rw [List.mem_append] at hc
        rcases hc with hc | hc
        · exact hch c hc
        · rw [List.mem_singleton] at hc
          subst hc
          exact le_trans (stripS_length_le _) hcur
    split at h
    · -- oversized section: fixed-size subchunks
      rename_i hbig
      cases hfix : chunkTextFixedSize fuel (sliceN text sec.charStart sec.charEnd) maxC ov with
      | none =>
        rw [hfix] at h
        exact absurd h (by simp)
      | some subs =>
        rw [hfix] at h
        dsimp only at h
        rw [chunkTextFixedSize] at hfix
        apply ih _ _ _ ?_ (by simp) h
        intro c hc
        rw [List.mem_append] at hc
        rcases hc with hc | hc
        · exact hflush c hc
        · have := fixGo_bound _ maxC ov fuel 0 [] subs (by simp) hfix c hc
          omega
    · split at h
      · -- flush and start a new overlap-seeded chunk
        rename_i hnofit hover
        apply ih _ _ _ ?_ ?_ h
        · intro c hc
          rw [List.mem_append] at hc
          rcases hc with hc | hc
          · exact hch c hc
          · rw [List.mem_singleton] at hc
            subst hc
            exact le_trans (stripS_length_le _) hcur
        · have hst : (sliceN text sec.charStart sec.charEnd).length ≤ maxC := by omega
          split
          · rw [List.length_append, List.length_cons, List.length_cons]
            have hovT : (if ov < (List.getLastD (chunks ++ [stripS current]) []).length
                then lastN ov (List.getLastD (chunks ++ [stripS current]) [])
                else List.getLastD (chunks ++ [stripS current]) []).length ≤ ov := by
              split
              · exact lastN_length_le _ _
              · omega
            omega
          · omega
      · -- append the section to the running chunk
        rename_i hnofit hfits
        apply ih _ _ _ hch ?_ h
        have hst : (sliceN text sec.charStart sec.charEnd).length ≤ maxC := by omega
        split
        · omega
        · rename_i hcur_ne
          rw [Bool.not_eq_true] at hcur_ne
          rw [List.length_append, List.length_cons, List.length_cons]
          have hsum : current.length + (sliceN text sec.charStart sec.charEnd).length ≤
              maxC := by
            by_contra hgt
            push_neg at hgt
            apply hfits
            rw [Bool.and_eq_true]
            exact ⟨decide_eq_true (by omega), by rw [hcur_ne]; rfl⟩
          omega

/-- C1 amended: every chunk produced by a terminating run of
chunk_text_fixed_size has length at most max_chunk_size (so an oversized
section, which is always routed through fixed-size chunking and never
appended intact, contributes only chunks within the bound), while a chunk
produced by semantic chunking may exceed max_chunk_size by up to
overlap_chars + 2: an overlap-seeded chunk holds up to overlap_chars carried
characters plus the two-character newline joiner on top of a section of up to
max_chunk_size characters, and this bound is tight up to the joiner
(see the counterexample, where a non-trailing chunk reaches 500001). -/
theorem C1_chunk_size_bounds :
    (∀ (fuel : Nat) (text : Str) (maxC ov : Nat) (chunks : List Str),
      chunkTextFixedSize fuel text maxC ov = some chunks →
      ∀ c ∈ chunks, c.length ≤ maxC) ∧
    (∀ (fuel : Nat) (text : Str) (maxC ov : Nat) (chunks : List Str),
      chunkTextSemantic fuel text maxC ov = some chunks →
      ∀ c ∈ chunks, c.length ≤ maxC + ov + 2) := by
  constructor
  · intro fuel text maxC ov chunks h
    rw [chunkTextFixedSize] at h
    exact fixGo_bound text maxC ov fuel 0 [] chunks (by simp) h
  · intro fuel text maxC ov chunks h
    rw [chunkTextSemantic] at h
    rw [if_neg (by
      intro hemp
      exact detectSections_ne_nil text (List.isEmpty_iff.mp hemp))] at h
    exact semGo_bound text maxC ov fuel (detectSections text) [] [] chunks
      (by simp) (by simp) h

theorem C1_chunk_size_bounds_witness :
    ("ab".toList.length ≤ 5) ∧ ("hello world".toList.length ≤ 550002) := by
  constructor
  · exact C1_chunk_size_bounds.1 2 ("ab".toList) 5 0 ["ab".toList] (by decide)
      ("ab".toList) (by simp)
  · exact C1_chunk_size_bounds.2 0 ("hello world".toList) 500000 50000
      ["hello world".toList] (by decide) ("hello world".toList) (by simp)
